import Mathlib

/-
Verification of the codescope chunk-extraction and change-detection core.

The definitions below are a shallow embedding of `src/codescope/chunker.py`,
`src/codescope/file_hashes.py`, `src/codescope/indexer.py` and
`src/codescope/session.py`.  External effects (file reads, `stat`, the
tree-sitter parse) are passed in as explicit inputs; fallible reads are
`Option`; the possibly non-terminating sliding-window loop is fuelled, with
`none` modelling divergence.
-/

namespace Codescope

/-! ## Strings and lines (Python `splitlines` / `strip` / `join`) -/

/-- The characters stripped by Python `str.strip()`, i.e. those for which
`str.isspace()` holds: the ASCII whitespace and separator controls
(U+0009-U+000D, U+001C-U+001F, U+0020), NEL U+0085, NBSP U+00A0,
Ogham space U+1680, the U+2000-U+200A spaces, the line and paragraph
separators U+2028/U+2029, U+202F, U+205F and the ideographic space
U+3000. -/
def pyIsSpace (c : Char) : Bool :=
  c = ' ' || c = '\t' || c = '\n' || c = '\r' ||
  c = Char.ofNat 11 || c = Char.ofNat 12 ||
  c = Char.ofNat 28 || c = Char.ofNat 29 || c = Char.ofNat 30 || c = Char.ofNat 31 ||
  c = Char.ofNat 133 || c = Char.ofNat 160 || c = Char.ofNat 5760 ||
  (8192 ≤ c.toNat && c.toNat ≤ 8202) ||
  c = Char.ofNat 8232 || c = Char.ofNat 8233 ||
  c = Char.ofNat 8239 || c = Char.ofNat 8287 || c = Char.ofNat 12288

/-- Characters at which Python `str.splitlines` ends a line. -/
def isLineBreak (c : Char) : Bool :=
  c = '\n' || c = '\r' ||
  c = Char.ofNat 11 || c = Char.ofNat 12 ||
  c = Char.ofNat 28 || c = Char.ofNat 29 || c = Char.ofNat 30 ||
  c = Char.ofNat 133 || c = Char.ofNat 8232 || c = Char.ofNat 8233

/-- Worker for `splitLines`: the first argument is the remaining text, the
second the (reversed) characters of the line currently being accumulated. -/
def splitLinesAux : List Char → List Char → List String
  | [], [] => []
  | [], acc => [String.mk acc.reverse]
  | '\r' :: '\n' :: rest, acc =>
    String.mk (acc.reverse ++ ['\r', '\n']) :: splitLinesAux rest []
  | c :: rest, acc =>
    if isLineBreak c then String.mk (acc.reverse ++ [c]) :: splitLinesAux rest []
    else splitLinesAux rest (c :: acc)

/-- Python `text.splitlines(keepends=True)`, as used by `chunk_file`. -/
def splitLines (s : String) : List String := splitLinesAux s.data []

/-- Python `"".join(parts)`. -/
def strJoin (parts : List String) : String := String.mk (parts.map String.data).flatten

/-- Python `bool(s.strip())`: `s` contains at least one non-whitespace
character.  Guards gap- and trailing-chunk emission in the chunker. -/
def hasNonWS (s : String) : Bool := s.data.any fun c => !(pyIsSpace c)

/-! ## `chunker.py` data model -/

/-- The `Chunk` dataclass. -/
structure Chunk where
  filePath : String
  startLine : Nat
  endLine : Nat
  content : String
  language : Option String
  symbol : Option String
deriving DecidableEq

/-- `Chunk.id` — the stable identifier `"<file_path>:<start_line>-<end_line>"`. -/
def Chunk.id (c : Chunk) : String :=
  c.filePath ++ ":" ++ toString c.startLine ++ "-" ++ toString c.endLine

/-- Line `l` (1-indexed) lies inside some chunk's line range. -/
def covers (cs : List Chunk) (l : Nat) : Bool :=
  cs.any fun c => c.startLine ≤ l && l ≤ c.endLine

/-- Line `l` (1-indexed) of `lines` contains a non-whitespace character. -/
def lineNonWS (lines : List String) (l : Nat) : Bool :=
  hasNonWS (lines.getD (l - 1) "")

/-! ## `_sliding_window` -/

/-- `end = min(i + max_lines, len(lines))` in `_sliding_window`. -/
def swEnd (lines : List String) (maxLines i : Nat) : Nat :=
  min (i + maxLines) lines.length

/-- The chunk `_sliding_window` appends at window start `i`. -/
def swChunk (lines : List String) (offset maxLines : Nat)
    (language symbol : Option String) (i : Nat) : Chunk :=
  ⟨"", offset + i + 1, offset + swEnd lines maxLines i,
    strJoin ((lines.drop i).take (swEnd lines maxLines i - i)),
    language, if i = 0 then symbol else none⟩

/-- `i = end - overlap if end < len(lines) else end`. -/
def swNext (lines : List String) (maxLines overlap i : Nat) : Nat :=
  if swEnd lines maxLines i < lines.length then swEnd lines maxLines i - overlap
  else swEnd lines maxLines i

/-- The `while i < len(lines)` loop of `_sliding_window`, with explicit fuel;
a `none` result models non-termination (possible when `overlap ≥ max_lines`). -/
def swLoopF (lines : List String) (offset maxLines overlap : Nat)
    (language symbol : Option String) : Nat → Nat → Option (List Chunk)
  | 0, _ => none
  | fuel + 1, i =>
    if i < lines.length then
      (swLoopF lines offset maxLines overlap language symbol fuel
          (swNext lines maxLines overlap i)).map
        (fun rest => swChunk lines offset maxLines language symbol i :: rest)
    else
      some []

/-- `_sliding_window(lines, offset=..., max_lines=..., overlap=...)`.  One
fuel unit per loop iteration; `lines.length + 1` units suffice for every
terminating run, so `none` means the Python loop diverges. -/
def slidingWindow (lines : List String) (offset maxLines overlap : Nat)
    (language symbol : Option String) : Option (List Chunk) :=
  swLoopF lines offset maxLines overlap language symbol (lines.length + 1) 0

/-! ## `_chunk_with_treesitter` and `chunk_file`

Tree-sitter itself is an external library; the parse result is an input.
A top-level node is abstracted to its 0-indexed start and end rows, its
node type, and the symbol name that `_get_node_name` extracts from it. -/

/-- A top-level child of the tree-sitter root node, as consumed by
`_chunk_with_treesitter`. -/
structure TSNode where
  startRow : Nat
  endRow : Nat
  typ : String
  name : Option String
deriving DecidableEq

/-- The `EXTENSION_TO_LANGUAGE` registry: file suffix to
`(module_name, language_name)`. -/
def extensionToLanguage (suffix : String) : Option (String × String) :=
  if suffix = ".py" then some ("tree_sitter_python", "python")
  else if suffix = ".js" then some ("tree_sitter_javascript", "javascript")
  else if suffix = ".jsx" then some ("tree_sitter_javascript", "javascript")
  else if suffix = ".ts" then some ("tree_sitter_typescript", "typescript")
  else if suffix = ".tsx" then some ("tree_sitter_typescript", "typescript")
  else if suffix = ".go" then some ("tree_sitter_go", "go")
  else if suffix = ".rs" then some ("tree_sitter_rust", "rust")
  else if suffix = ".java" then some ("tree_sitter_java", "java")
  else if suffix = ".c" then some ("tree_sitter_c", "c")
  else if suffix = ".h" then some ("tree_sitter_c", "c")
  else if suffix = ".cpp" then some ("tree_sitter_cpp", "cpp")
  else if suffix = ".hpp" then some ("tree_sitter_cpp", "cpp")
  else if suffix = ".cc" then some ("tree_sitter_cpp", "cpp")
  else if suffix = ".cs" then some ("tree_sitter_c_sharp", "c_sharp")
  else if suffix = ".rb" then some ("tree_sitter_ruby", "ruby")
  else if suffix = ".html" then some ("tree_sitter_html", "html")
  else if suffix = ".css" then some ("tree_sitter_css", "css")
  else none

/-- The `SEMANTIC_NODE_TYPES` table (`.get(language_name, set())`: unknown
languages give the empty set). -/
def semanticNodeTypes (language : String) : List String :=
  if language = "python" then
    ["function_definition", "class_definition", "decorated_definition"]
  else if language = "javascript" then
    ["function_declaration", "class_declaration", "export_statement",
     "lexical_declaration", "expression_statement"]
  else if language = "typescript" then
    ["function_declaration", "class_declaration", "export_statement",
     "lexical_declaration", "interface_declaration", "type_alias_declaration",
     "enum_declaration"]
  else if language = "go" then
    ["function_declaration", "method_declaration", "type_declaration"]
  else if language = "rust" then
    ["function_item", "impl_item", "struct_item", "enum_item",
     "trait_item", "mod_item"]
  else if language = "java" then
    ["class_declaration", "interface_declaration", "enum_declaration",
     "method_declaration"]
  else if language = "c" then
    ["function_definition", "struct_specifier", "enum_specifier", "declaration"]
  else if language = "cpp" then
    ["function_definition", "class_specifier", "struct_specifier",
     "namespace_definition", "template_declaration"]
  else if language = "c_sharp" then
    ["class_declaration", "interface_declaration", "method_declaration",
     "namespace_declaration", "enum_declaration"]
  else if language = "ruby" then
    ["method", "class", "module", "singleton_method"]
  else []

/-- `_node_to_chunk`: content is `lines[start : end + 1]`, line numbers are
converted to 1-indexed. -/
def nodeToChunk (node : TSNode) (lines : List String) (language : String) : Chunk :=
  ⟨"", node.startRow + 1, node.endRow + 1,
    strJoin ((lines.drop node.startRow).take (node.endRow + 1 - node.startRow)),
    some language, node.name⟩

/-- The gap capture before a semantic node in `_chunk_with_treesitter`:
`if child_start > last_end and last_end < len(lines)`, append one unnamed
chunk when the gap text is non-whitespace. -/
def gapAppend (lines : List String) (language : String) (lastEnd childStart : Nat)
    (chunks : List Chunk) : List Chunk :=
  if childStart > lastEnd ∧ lastEnd < lines.length then
    let gap := strJoin ((lines.drop lastEnd).take (childStart - lastEnd))
    if hasNonWS gap then
      chunks ++ [⟨"", lastEnd + 1, childStart, gap, some language, none⟩]
    else chunks
  else chunks

/-- The `for child in root.children` loop of `_chunk_with_treesitter`,
carrying `last_end` and the accumulated chunk list.  `none` models
divergence of an inner `_sliding_window` call. -/
def tsLoop (lines : List String) (semTypes : List String) (maxLines overlap : Nat)
    (language : String) : List TSNode → Nat → List Chunk → Option (List Chunk)
  | [], lastEnd, chunks =>
    if lastEnd < lines.length then
      let trailing := strJoin (lines.drop lastEnd)
      if hasNonWS trailing then
        some (chunks ++ [⟨"", lastEnd + 1, lines.length, trailing, some language, none⟩])
      else some chunks
    else some chunks
  | child :: rest, lastEnd, chunks =>
    if child.typ ∈ semTypes then
      let chunks1 := gapAppend lines language lastEnd child.startRow chunks
      if child.endRow - child.startRow + 1 ≤ maxLines then
        tsLoop lines semTypes maxLines overlap language rest (child.endRow + 1)
          (chunks1 ++ [nodeToChunk child lines language])
      else
        (slidingWindow ((lines.drop child.startRow).take (child.endRow + 1 - child.startRow))
            child.startRow maxLines overlap (some language) child.name).bind fun ws =>
          tsLoop lines semTypes maxLines overlap language rest (child.endRow + 1) (chunks1 ++ ws)
    else
      tsLoop lines semTypes maxLines overlap language rest lastEnd chunks

/-- `_chunk_with_treesitter`, given the parsed tree's top-level children.
`some none` is the Python function returning `None` (caller falls back to the
sliding window); the outer `none` models divergence. -/
def chunkWithTreesitter (lines : List String) (children : List TSNode)
    (language : String) (maxLines overlap : Nat) : Option (Option (List Chunk)) :=
  let semTypes := semanticNodeTypes language
  if semTypes = [] then some none
  else
    match tsLoop lines semTypes maxLines overlap language children 0 [] with
    | none => none
    | some cs => some (if cs = [] then none else some cs)

/-- `chunk_file`.  `readResult` is the outcome of `path.read_text` (`none`
models `OSError`); `suffix` is `path.suffix.lower()`; `parseResult` is the
tree-sitter outcome (`none` models a missing/unloadable parser or a parse
exception, `some children` a successful parse). -/
def chunkFile (readResult : Option String) (suffix : String)
    (parseResult : Option (List TSNode)) (maxLines overlap : Nat) :
    Option (List Chunk) :=
  match readResult with
  | none => some []
  | some text =>
    let lines := splitLines text
    if lines = [] then some []
    else
      match extensionToLanguage suffix with
      | some (_, languageName) =>
        match parseResult with
        | some children =>
          match chunkWithTreesitter lines children languageName maxLines overlap with
          | none => none
          | some (some cs) => some cs
          | some none => slidingWindow lines 0 maxLines overlap none none
        | none => slidingWindow lines 0 maxLines overlap none none
      | none => slidingWindow lines 0 maxLines overlap none none

/-! ## `file_hashes.py` — the hash registry and its diff

Files are identified by their project-relative path (the Python code's
`str(file.relative_to(project_root))`); the file system is an explicit input:
`stat` is the mtime returned by `file.stat().st_mtime` (`none` models
`OSError`) and `hashFile` is `_hash_file` (`none` models an unreadable file).
mtimes are modelled as `Nat` (only equality on them is used) and hashes as
`String`. -/

/-- One value of the registry's flat JSON dictionary:
`{"hash": ..., "mtime": ...}`.  The fields are optional because the code
reads them with `dict.get`, which yields `None` when a key is missing. -/
structure Entry where
  hash : Option String
  mtime : Option Nat
deriving DecidableEq

/-- The observable file system during one run. -/
structure FS where
  stat : String → Option Nat
  hashFile : String → Option String

/-- The in-memory registry `self._hashes`, as an insertion-ordered
association list (Python dicts preserve insertion order; keys are unique). -/
abbrev Registry := List (String × Entry)

/-- Dictionary lookup `self._hashes.get(rel)`. -/
def regFind (reg : Registry) (k : String) : Option Entry :=
  match reg with
  | [] => none
  | (k', e) :: rest => if k' = k then some e else regFind rest k

/-- Dictionary assignment `self._hashes[rel] = e`: overwrite in place if the
key exists, else append (Python dict insertion order; keys are unique). -/
def regSet : Registry → String → Entry → Registry
  | [], k, e => [(k, e)]
  | (k', e') :: rest, k, e =>
    if k' = k then (k, e) :: rest else (k', e') :: regSet rest k e

/-- `FileHashRegistry.remove`: `self._hashes.pop(rel_path, None)`. -/
def regRemove (reg : Registry) (k : String) : Registry :=
  reg.filter fun p => p.1 ≠ k

/-- `FileHashRegistry.update`: recompute and store `{hash, mtime}` for one
file; unreadable files leave the registry untouched, a failing `stat` stores
mtime `0.0`. -/
def regUpdate (fs : FS) (reg : Registry) (f : String) : Registry :=
  match fs.hashFile f with
  | none => reg
  | some h => regSet reg f ⟨some h, some ((fs.stat f).getD 0)⟩

/-- Handling of one candidate file in the loop body of
`FileHashRegistry.diff`: whether the file is appended to `changed`, and the
possibly mtime-refreshed registry. -/
def diffStep (fs : FS) (reg : Registry) (f : String) : Bool × Registry :=
  match regFind reg f with
  | some st =>
    match fs.stat f with
    | none => (true, reg)
    | some m =>
      if st.mtime = some m then (false, reg)
      else
        match fs.hashFile f with
        | none => (false, reg)
        | some h =>
          if st.hash = some h then
            (false,
              match fs.stat f with
              | some m2 => regSet reg f ⟨st.hash, some m2⟩
              | none => reg)
          else (true, reg)
  | none =>
    match fs.hashFile f with
    | none => (false, reg)
    | some _ => (true, reg)

/-- The `for file in files` loop of `FileHashRegistry.diff`, one
`diffStep` per candidate file. -/
def diffLoop (fs : FS) : List String → List String → Registry →
    List String × Registry
  | [], changed, reg => (changed, reg)
  | f :: rest, changed, reg =>
    let s := diffStep fs reg f
    diffLoop fs rest (if s.1 then changed ++ [f] else changed) s.2

/-- Python `sorted` on a list of strings (Mathlib's linear order on `String`
is the code-point order Python uses). -/
def sortStrings (l : List String) : List String :=
  l.insertionSort (· ≤ ·)

/-- `FileHashRegistry.diff`: the per-file loop, then
`sorted(set(self._hashes.keys()) - current_rel_paths)`.  Returns
`((changed, deleted), registry after the run)`. -/
def pyDiff (fs : FS) (reg : Registry) (files : List String) :
    (List String × List String) × Registry :=
  let r := diffLoop fs files [] reg
  ((r.1, sortStrings (((r.2.map Prod.fst).dedup).filter fun k => decide (k ∉ files))), r.2)

/-- `FileHashRegistry._load`: the on-disk parse outcome is an input
(`none` = file absent, `some (.error _)` = `JSONDecodeError`/`OSError`,
`some (.ok reg)` = parsed registry). -/
def registryLoad (diskContent : Option (Except String Registry)) : Registry :=
  match diskContent with
  | none => []
  | some (Except.error _) => []
  | some (Except.ok reg) => reg

/-! ## `indexer.py` — registry effect of full and incremental runs, and
identifier assignment in `_embed_and_store` -/

/-- Registry effect of `_full_index`: `registry.update(f, root)` for every
candidate file (deleted paths are not touched). -/
def fullIndexReg (fs : FS) (reg : Registry) (files : List String) : Registry :=
  files.foldl (regUpdate fs) reg

/-- Registry effect of `_incremental_index`: `diff`, then `remove` for every
deleted path, then `update` for every changed file. -/
def incrementalIndexReg (fs : FS) (reg : Registry) (files : List String) : Registry :=
  let r := pyDiff fs reg files
  let reg2 := r.1.2.foldl regRemove r.2
  r.1.1.foldl (regUpdate fs) reg2

/-- The id-deduplication loop of `_embed_and_store`, carrying the `seen`
counter dictionary. -/
def assignIdsAux (seen : String → Nat) : List String → List String
  | [] => []
  | r :: rest =>
    let c := seen r
    (if c > 0 then r ++ "#" ++ toString c else r) ::
      assignIdsAux (fun s => if s = r then c + 1 else seen s) rest

/-- Collision-safe ids for a batch of raw ids (`seen` starts empty). -/
def assignIds (rawIds : List String) : List String :=
  assignIdsAux (fun _ => 0) rawIds

/-- The ids `_embed_and_store` upserts for a batch of chunks. -/
def embedAndStoreIds (chunks : List Chunk) : List String :=
  assignIds (chunks.map Chunk.id)

/-! ## `session.py` — session snapshot diff -/

/-- `SessionDiff` dataclass. -/
structure SessionDiff where
  modified : List String
  created : List String
  deleted : List String
deriving DecidableEq

/-- A parsed session snapshot: relative path to `{"hash": ...}` (again the
hash is read with `.get`, hence optional). -/
abbrev Snapshot := List (String × Option String)

/-- Snapshot lookup. -/
def snapFind (snap : Snapshot) (k : String) : Option (Option String) :=
  match snap with
  | [] => none
  | (k', h) :: rest => if k' = k then some h else snapFind rest k

/-- `compute_diff`, given the snapshot file's parse outcome (`none` = file
absent, `some (.error _)` = malformed) and the current candidate files.
Malformed or absent snapshots yield `none` — the "no active session"
sentinel. -/
def computeDiff (snapshotDisk : Option (Except String Snapshot)) (fs : FS)
    (files : List String) : Option SessionDiff :=
  match snapshotDisk with
  | none => none
  | some (Except.error _) => none
  | some (Except.ok snap) =>
    let currentHashes : List (String × String) :=
      files.filterMap fun f => (fs.hashFile f).map fun h => (f, h)
    let sortedCurrent := currentHashes.insertionSort fun a b => a.1 ≤ b.1
    let modified := (sortedCurrent.filter fun p =>
      match snapFind snap p.1 with
      | some storedHash => decide (storedHash ≠ some p.2)
      | none => false).map Prod.fst
    let created := (sortedCurrent.filter fun p => (snapFind snap p.1).isNone).map Prod.fst
    let deleted := (sortStrings ((snap.map Prod.fst).dedup)).filter fun k =>
      decide (k ∉ currentHashes.map Prod.fst)
    some ⟨modified, created, deleted⟩

/-! ## Sliding-window lemmas -/

theorem swLoopF_of_le {lines : List String} {offset maxLines overlap : Nat}
    {language symbol : Option String} {fuel i : Nat}
    (h : lines.length ≤ i) (hf : 0 < fuel) :
    swLoopF lines offset maxLines overlap language symbol fuel i = some [] := by
  cases fuel with
  | zero => omega
  | succ f => simp [swLoopF, Nat.not_lt.mpr h]

theorem swLoopF_isSome {lines : List String} {offset maxLines overlap : Nat}
    {language symbol : Option String} (hov : overlap < maxLines) :
    ∀ fuel i, lines.length - i < fuel →
      (swLoopF lines offset maxLines overlap language symbol fuel i).isSome := by
  intro fuel
  induction fuel with
  | zero => intro i h; omega
  | succ f ih =>
    intro i h
    by_cases hi : i < lines.length
    · have he1 : swEnd lines maxLines i ≤ i + maxLines := Nat.min_le_left _ _
      have he2 : swEnd lines maxLines i ≤ lines.length := Nat.min_le_right _ _
      have hrec : lines.length - swNext lines maxLines overlap i < f := by
        unfold swNext
        by_cases hel : swEnd lines maxLines i < lines.length
        · have : swEnd lines maxLines i = i + maxLines := by
            unfold swEnd at hel ⊢; omega
          simp only [hel, if_true]
          omega
        · simp only [hel, if_false]
          omega
      have := ih (swNext lines maxLines overlap i) hrec
      rw [Option.isSome_iff_exists] at this
      obtain ⟨rest, hrest⟩ := this
      simp [swLoopF, hi, hrest]
    · rw [swLoopF_of_le (Nat.not_lt.mp hi) (Nat.succ_pos f)]
      rfl

theorem swLoopF_head {lines : List String} {offset maxLines overlap : Nat}
    {language symbol : Option String} {fuel i : Nat} {c : Chunk} {rest : List Chunk}
    (h : swLoopF lines offset maxLines overlap language symbol fuel i = some (c :: rest)) :
    c = swChunk lines offset maxLines language symbol i ∧ i < lines.length := by
  cases fuel with
  | zero => simp [swLoopF] at h
  | succ f =>
    by_cases hi : i < lines.length
    · simp only [swLoopF, hi, if_true, Option.map_eq_some'] at h
      obtain ⟨r, _, heq⟩ := h
      injection heq with h1 h2
      exact ⟨h1.symm, hi⟩
    · simp [swLoopF, hi] at h

theorem swLoopF_ne_nil {lines : List String} {offset maxLines overlap : Nat}
    {language symbol : Option String} {fuel i : Nat} {cs : List Chunk}
    (h : swLoopF lines offset maxLines overlap language symbol fuel i = some cs)
    (hi : i < lines.length) : cs ≠ [] := by
  cases fuel with
  | zero => simp [swLoopF] at h
  | succ f =>
    simp only [swLoopF, hi, if_true, Option.map_eq_some'] at h
    obtain ⟨r, _, hr⟩ := h
    simp [← hr]

theorem swNext_gt {lines : List String} {maxLines overlap i : Nat}
    (hov : overlap < maxLines) (hi : i < lines.length) :
    i < swNext lines maxLines overlap i := by
  have he1 : swEnd lines maxLines i ≤ i + maxLines := Nat.min_le_left _ _
  have he2 : swEnd lines maxLines i ≤ lines.length := Nat.min_le_right _ _
  unfold swNext
  by_cases hel : swEnd lines maxLines i < lines.length
  · have : swEnd lines maxLines i = i + maxLines := by
      unfold swEnd at hel ⊢; omega
    simp only [hel, if_true]
    omega
  · have : i + 1 ≤ swEnd lines maxLines i := by unfold swEnd; omega
    simp only [hel, if_false]
    omega

theorem swLoopF_bounds {lines : List String} {offset maxLines overlap : Nat}
    {language symbol : Option String} (hov : overlap < maxLines) :
    ∀ fuel i cs,
      swLoopF lines offset maxLines overlap language symbol fuel i = some cs →
      ∀ c ∈ cs, offset + i + 1 ≤ c.startLine ∧ c.startLine ≤ c.endLine ∧
        c.endLine ≤ offset + lines.length ∧ c.endLine + 1 ≤ c.startLine + maxLines := by
  intro fuel
  induction fuel with
  | zero => intro i cs h; simp [swLoopF] at h
  | succ f ih =>
    intro i cs h
    by_cases hi : i < lines.length
    · simp only [swLoopF, hi, if_true, Option.map_eq_some'] at h
      obtain ⟨rest, hrest, hcs⟩ := h
      subst hcs
      intro c hc
      have he1 : swEnd lines maxLines i ≤ i + maxLines := Nat.min_le_left _ _
      have he2 : swEnd lines maxLines i ≤ lines.length := Nat.min_le_right _ _
      have he3 : i + 1 ≤ swEnd lines maxLines i := by unfold swEnd; omega
      rcases List.mem_cons.mp hc with hc | hc
      · subst hc
        simp only [swChunk]
        refine ⟨by omega, by omega, by omega, by omega⟩
      · have hrec := ih (swNext lines maxLines overlap i) rest hrest c hc
        have hgt := swNext_gt hov hi
        exact ⟨by omega, hrec.2.1, hrec.2.2.1, hrec.2.2.2⟩
    · rw [swLoopF_of_le (Nat.not_lt.mp hi) (Nat.succ_pos f)] at h
      injection h with h1
      subst h1
      intro c hc
      exact absurd hc (List.not_mem_nil c)

theorem covers_append {cs ds : List Chunk} {l : Nat} :
    covers (cs ++ ds) l = (covers cs l || covers ds l) :=
  List.any_append

theorem swNext_le_swEnd {lines : List String} {maxLines overlap i : Nat} :
    swNext lines maxLines overlap i ≤ swEnd lines maxLines i := by
  unfold swNext
  split <;> omega

theorem swLoopF_covers {lines : List String} {offset maxLines overlap : Nat}
    {language symbol : Option String} :
    ∀ fuel i cs,
      swLoopF lines offset maxLines overlap language symbol fuel i = some cs →
      ∀ l, offset + i + 1 ≤ l → l ≤ offset + lines.length → covers cs l = true := by
  intro fuel
  induction fuel with
  | zero => intro i cs h; simp [swLoopF] at h
  | succ f ih =>
    intro i cs h l hl1 hl2
    by_cases hi : i < lines.length
    · simp only [swLoopF, hi, if_true, Option.map_eq_some'] at h
      obtain ⟨rest, hrest, hcs⟩ := h
      subst hcs
      by_cases hle : l ≤ offset + swEnd lines maxLines i
      · simp only [covers, List.any_cons, Bool.or_eq_true, List.any_eq_true]
        left
        simp only [swChunk, Bool.and_eq_true, decide_eq_true_eq]
        exact ⟨hl1, hle⟩
      · have hnext := @swNext_le_swEnd lines maxLines overlap i
        have hrec := ih (swNext lines maxLines overlap i) rest hrest l (by omega) hl2
        simp only [covers, List.any_cons, Bool.or_eq_true]
        right
        exact hrec
    · omega

theorem swLoopF_tail {lines : List String} {offset maxLines overlap : Nat}
    {language symbol : Option String} {fuel i : Nat} {c : Chunk} {rest : List Chunk}
    (h : swLoopF lines offset maxLines overlap language symbol fuel i = some (c :: rest)) :
    ∃ f, fuel = f + 1 ∧
      swLoopF lines offset maxLines overlap language symbol f
        (swNext lines maxLines overlap i) = some rest := by
  cases fuel with
  | zero => simp [swLoopF] at h
  | succ f =>
    by_cases hi : i < lines.length
    · simp only [swLoopF, hi, if_true, Option.map_eq_some'] at h
      obtain ⟨r, hr, heq⟩ := h
      injection heq with h1 h2
      exact ⟨f, rfl, h2 ▸ hr⟩
    · simp [swLoopF, hi] at h

theorem swLoopF_last {lines : List String} {offset maxLines overlap : Nat}
    {language symbol : Option String} :
    ∀ fuel i cs
      (_ : swLoopF lines offset maxLines overlap language symbol fuel i = some cs)
      (_ : i < lines.length) (hne : cs ≠ []),
      (cs.getLast hne).endLine = offset + lines.length := by
  intro fuel
  induction fuel with
  | zero => intro i cs h; simp [swLoopF] at h
  | succ f ih =>
    intro i cs h hi hne
    simp only [swLoopF, hi, if_true, Option.map_eq_some'] at h
    obtain ⟨rest, hrest, hcs⟩ := h
    subst hcs
    cases rest with
    | nil =>
      have hge : ¬ swNext lines maxLines overlap i < lines.length := by
        intro hlt
        exact swLoopF_ne_nil hrest hlt rfl
      have he2 : swEnd lines maxLines i ≤ lines.length := Nat.min_le_right _ _
      have heq : swEnd lines maxLines i = lines.length := by
        unfold swNext at hge
        by_cases hel : swEnd lines maxLines i < lines.length
        · simp only [hel, if_true] at hge; omega
        · omega
      simp [swChunk, heq]
    | cons c2 r2 =>
      have hf : 0 < f := by
        rcases Nat.eq_zero_or_pos f with h0 | h0
        · subst h0; simp [swLoopF] at hrest
        · exact h0
      have hlt : swNext lines maxLines overlap i < lines.length := by
        by_contra hge
        rw [swLoopF_of_le (Nat.not_lt.mp hge) hf] at hrest
        simp at hrest
      rw [List.getLast_cons (List.cons_ne_nil c2 r2)]
      exact ih (swNext lines maxLines overlap i) (c2 :: r2) hrest hlt (List.cons_ne_nil c2 r2)

theorem swLoopF_chain {lines : List String} {offset maxLines overlap : Nat}
    {language symbol : Option String} (hov : overlap < maxLines) :
    ∀ fuel i cs,
      swLoopF lines offset maxLines overlap language symbol fuel i = some cs →
      cs.Chain' (fun a b => a.endLine + 1 = b.startLine + overlap) := by
  intro fuel
  induction fuel with
  | zero => intro i cs h; simp [swLoopF] at h
  | succ f ih =>
    intro i cs h
    by_cases hi : i < lines.length
    · simp only [swLoopF, hi, if_true, Option.map_eq_some'] at h
      obtain ⟨rest, hrest, hcs⟩ := h
      subst hcs
      rw [List.chain'_cons']
      refine ⟨?_, ih (swNext lines maxLines overlap i) rest hrest⟩
      intro b hb
      cases rest with
      | nil => simp at hb
      | cons c2 r2 =>
        simp only [List.head?_cons, Option.mem_def, Option.some.injEq] at hb
        subst hb
        obtain ⟨hc2, hi'lt⟩ := swLoopF_head hrest
        subst hc2
        simp only [swChunk]
        have he2 : swEnd lines maxLines i ≤ lines.length := Nat.min_le_right _ _
        unfold swNext at hi'lt ⊢
        by_cases hel : swEnd lines maxLines i < lines.length
        · have : swEnd lines maxLines i = i + maxLines := by
            unfold swEnd at hel ⊢; omega
          simp only [hel, if_true]
          omega
        · simp only [hel, if_false] at hi'lt
    · rw [swLoopF_of_le (Nat.not_lt.mp hi) (Nat.succ_pos f)] at h
      injection h with h1
      subst h1
      exact List.chain'_nil

theorem slidingWindow_single {lines : List String} {offset maxLines overlap : Nat}
    {language symbol : Option String} {cs : List Chunk}
    (h : slidingWindow lines offset maxLines overlap language symbol = some cs)
    (hml : lines.length ≤ maxLines) (hne : 0 < lines.length) :
    cs = [swChunk lines offset maxLines language symbol 0] := by
  unfold slidingWindow at h
  cases cs with
  | nil => exact absurd rfl (swLoopF_ne_nil h hne)
  | cons c rest =>
    obtain ⟨hc, -⟩ := swLoopF_head h
    obtain ⟨f, hf, htail⟩ := swLoopF_tail h
    have hend : swEnd lines maxLines 0 = lines.length := by
      unfold swEnd; omega
    have hnext : swNext lines maxLines overlap 0 = lines.length := by
      unfold swNext
      rw [hend]
      simp
    rw [hnext] at htail
    have hfpos : 0 < f := by
      injection hf with hf'
      omega
    rw [swLoopF_of_le (Nat.le_refl _) hfpos] at htail
    injection htail with htail'
    subst hc
    rw [← htail']

/-! ## Claim theorems: window splitter -/

/-- C2: for `max_lines = 10` and `overlap = 2`, a 25-line input yields
exactly the chunks `[1-10], [9-18], [17-25]`; each chunk has at most
`max_lines` lines, consecutive chunks overlap by exactly `overlap` lines,
the final chunk ends exactly at the input's last line, and an input that
fits within `max_lines` produces exactly one chunk. -/
theorem window_splitter_concrete :
    ((slidingWindow (List.replicate 25 "x\n") 0 10 2 none none).map
      (List.map fun c => (c.startLine, c.endLine)) = some [(1, 10), (9, 18), (17, 25)]) ∧
    (∀ lines cs, slidingWindow lines 0 10 2 none none = some cs →
      (∀ c ∈ cs, c.endLine + 1 ≤ c.startLine + 10) ∧
      cs.Chain' (fun a b => a.endLine + 1 = b.startLine + 2) ∧
      (0 < lines.length → ∀ hne : cs ≠ [], (cs.getLast hne).endLine = lines.length) ∧
      (0 < lines.length → lines.length ≤ 10 → cs.length = 1)) := by
  refine ⟨by decide, ?_⟩
  intro lines cs h
  refine ⟨?_, ?_, ?_, ?_⟩
  · intro c hc
    exact (swLoopF_bounds (by omega) (lines.length + 1) 0 cs h c hc).2.2.2
  · exact swLoopF_chain (by omega) (lines.length + 1) 0 cs h
  · intro hpos hne
    have := swLoopF_last (lines.length + 1) 0 cs h hpos hne
    omega
  · intro hpos hle
    rw [slidingWindow_single h hle hpos]
    rfl

/-- C2 witness: the hypotheses of `window_splitter_concrete` discharged on
concrete inputs (a 25-line run for the overlap chain, a 5-line run for the
single-chunk case). -/
theorem window_splitter_concrete_witness :
    ((slidingWindow (List.replicate 25 "x\n") 0 10 2 none none).getD []).Chain'
      (fun a b => a.endLine + 1 = b.startLine + 2) ∧
    ((slidingWindow (List.replicate 5 "x\n") 0 10 2 none none).getD []).length = 1 := by
  constructor
  · exact ((window_splitter_concrete).2 (List.replicate 25 "x\n") _ (by rfl)).2.1
  · exact ((window_splitter_concrete).2 (List.replicate 5 "x\n") _ (by rfl)).2.2.2
      (by decide) (by decide)

/-- C9: for every finite line sequence and every configuration with
`max_lines ≥ 1` and `overlap < max_lines`, the sliding-window splitter
terminates (the fuelled loop returns a result with fuel `len + 1`, i.e. the
window start strictly increases each iteration). -/
theorem sliding_window_terminates (lines : List String) (offset maxLines overlap : Nat)
    (language symbol : Option String) (_hml : 1 ≤ maxLines) (hov : overlap < maxLines) :
    ∃ cs, slidingWindow lines offset maxLines overlap language symbol = some cs := by
  have h := @swLoopF_isSome lines offset maxLines overlap language symbol hov
    (lines.length + 1) 0 (by omega)
  exact Option.isSome_iff_exists.mp h

/-- C9 witness: termination on a concrete 3-line input with
`max_lines = 2, overlap = 1`. -/
theorem sliding_window_terminates_witness :
    ∃ cs, slidingWindow (List.replicate 3 "x") 0 2 1 none none = some cs :=
  sliding_window_terminates (List.replicate 3 "x") 0 2 1 none none (by decide) (by decide)

/-! ## Claim theorems: chunk_file error boundary -/

/-- C6: `chunk_file` on an unreadable file (read raises `OSError`) returns
zero chunks, and on a file with zero lines (in particular the empty file)
returns zero chunks; neither case is an error. -/
theorem chunk_file_error_boundary :
    (∀ suffix parseResult maxLines overlap,
      chunkFile none suffix parseResult maxLines overlap = some []) ∧
    (∀ suffix parseResult maxLines overlap,
      chunkFile (some "") suffix parseResult maxLines overlap = some []) ∧
    (∀ text suffix parseResult maxLines overlap, splitLines text = [] →
      chunkFile (some text) suffix parseResult maxLines overlap = some []) := by
  refine ⟨fun _ _ _ _ => rfl, fun _ _ _ _ => rfl, ?_⟩
  intro text suffix pr ml ov h
  simp [chunkFile, h]

/-- C6 witness: the zero-lines hypothesis discharged on the empty string. -/
theorem chunk_file_error_boundary_witness :
    chunkFile (some "") ".py" none 60 2 = some [] :=
  chunk_file_error_boundary.2.2 "" ".py" none 60 2 rfl

/-! ## Registry lemmas -/

theorem regFind_regSet_self (reg : Registry) (k : String) (e : Entry) :
    regFind (regSet reg k e) k = some e := by
  induction reg with
  | nil => simp [regSet, regFind]
  | cons p rest ih =>
    obtain ⟨k0, e0⟩ := p
    by_cases hk : k0 = k
    · subst hk
      simp [regSet, regFind]
    · simp [regSet, regFind, hk, ih]

theorem regFind_regSet_ne (reg : Registry) (k k' : String) (e : Entry) (h : k' ≠ k) :
    regFind (regSet reg k e) k' = regFind reg k' := by
  induction reg with
  | nil => simp [regSet, regFind, Ne.symm h]
  | cons p rest ih =>
    obtain ⟨k0, e0⟩ := p
    by_cases hk : k0 = k
    · subst hk
      simp [regSet, regFind, Ne.symm h]
    · by_cases hk' : k0 = k' <;> simp [regSet, regFind, hk, hk', ih, h]

theorem regSet_keys_of_found (reg : Registry) (k : String) (e st : Entry)
    (h : regFind reg k = some st) :
    (regSet reg k e).map Prod.fst = reg.map Prod.fst := by
  induction reg with
  | nil => simp [regFind] at h
  | cons p rest ih =>
    obtain ⟨k0, e0⟩ := p
    by_cases hk : k0 = k
    · subst hk
      simp [regSet]
    · simp only [regFind, hk, if_false] at h
      simp [regSet, hk, ih h]

theorem regSet_keys_mem (reg : Registry) (k : String) (e : Entry) :
    ∀ x ∈ (regSet reg k e).map Prod.fst, x ∈ reg.map Prod.fst ∨ x = k := by
  induction reg with
  | nil => simp [regSet]
  | cons p rest ih =>
    obtain ⟨k0, e0⟩ := p
    by_cases hk : k0 = k
    · subst hk
      intro x hx
      simp only [regSet, if_true] at hx
      simp only [List.map_cons, List.mem_cons] at hx ⊢
      tauto
    · intro x hx
      simp only [regSet, hk, if_false, List.map_cons, List.mem_cons] at hx
      simp only [List.map_cons, List.mem_cons]
      rcases hx with hx | hx
      · tauto
      · rcases ih x hx with h' | h' <;> tauto

theorem diffStep_keys (fs : FS) (reg : Registry) (f : String) :
    (diffStep fs reg f).2.map Prod.fst = reg.map Prod.fst := by
  unfold diffStep
  rcases hst : regFind reg f with - | st
  · rcases fs.hashFile f with - | h <;> simp
  · rcases hm : fs.stat f with - | m
    · simp
    · by_cases hmt : st.mtime = some m
      · simp [hmt]
      · rcases hh : fs.hashFile f with - | h
        · simp [hmt]
        · by_cases hhash : st.hash = some h
          · simp [hmt, hhash, hm, regSet_keys_of_found reg f _ st hst]
          · simp [hmt, hhash]

theorem diffStep_hash (fs : FS) (reg : Registry) (f : String) :
    ∀ k, (regFind (diffStep fs reg f).2 k).map Entry.hash
      = (regFind reg k).map Entry.hash := by
  intro k
  unfold diffStep
  rcases hst : regFind reg f with - | st
  · rcases fs.hashFile f with - | h <;> simp
  · rcases hm : fs.stat f with - | m
    · simp
    · by_cases hmt : st.mtime = some m
      · simp [hmt]
      · rcases hh : fs.hashFile f with - | h
        · simp [hmt]
        · by_cases hhash : st.hash = some h
          · simp only [hmt, hhash, if_false, if_true, hm]
            by_cases hk : k = f
            · subst hk
              rw [regFind_regSet_self, hst]
              simp [hhash]
            · rw [regFind_regSet_ne reg f k _ hk]
          · simp [hmt, hhash]

theorem diffStep_frame (fs : FS) (reg : Registry) (f : String) :
    ∀ k e e', regFind reg k = some e → regFind (diffStep fs reg f).2 k = some e' →
      e' ≠ e →
      k = f ∧ ∃ m h, fs.stat k = some m ∧ fs.hashFile k = some h ∧
        e.hash = some h ∧ e' = ⟨e.hash, some m⟩ := by
  intro k e e' he he' hne
  unfold diffStep at he'
  rcases hst : regFind reg f with - | st <;> rw [hst] at he'
  · rcases hh0 : fs.hashFile f with - | h <;>
      · rw [hh0] at he'
        dsimp only at he'
        rw [he] at he'
        injection he' with h1
        exact absurd h1.symm hne
  · rcases hm : fs.stat f with - | m <;> rw [hm] at he'
    · simp only at he'
      rw [he] at he'
      injection he' with h1
      exact absurd h1.symm hne
    · by_cases hmt : st.mtime = some m <;> simp only [hmt, if_true, if_false] at he'
      · rw [he] at he'
        injection he' with h1
        exact absurd h1.symm hne
      · rcases hh : fs.hashFile f with - | h <;> rw [hh] at he'
        · simp only at he'
          rw [he] at he'
          injection he' with h1
          exact absurd h1.symm hne
        · by_cases hhash : st.hash = some h <;>
            simp only [hhash, if_true, if_false] at he'
          · by_cases hk : k = f
            · subst hk
              rw [regFind_regSet_self] at he'
              rw [he] at hst
              injection hst with hst'
              subst hst'
              injection he' with he''
              exact ⟨rfl, m, h, hm, hh, hhash, by rw [hhash]; exact he''.symm⟩
            · rw [regFind_regSet_ne reg f k _ hk, he] at he'
              injection he' with h1
              exact absurd h1.symm hne
          · rw [he] at he'
            injection he' with h1
            exact absurd h1.symm hne

theorem diffLoop_keys (fs : FS) :
    ∀ (files changed : List String) (reg : Registry),
      (diffLoop fs files changed reg).2.map Prod.fst = reg.map Prod.fst := by
  intro files
  induction files with
  | nil => intro changed reg; rfl
  | cons f rest ih =>
    intro changed reg
    simp only [diffLoop]
    rw [ih]
    exact diffStep_keys fs reg f

theorem diffLoop_hash (fs : FS) :
    ∀ (files changed : List String) (reg : Registry) (k : String),
      (regFind (diffLoop fs files changed reg).2 k).map Entry.hash
        = (regFind reg k).map Entry.hash := by
  intro files
  induction files with
  | nil => intro changed reg k; rfl
  | cons f rest ih =>
    intro changed reg k
    simp only [diffLoop]
    rw [ih]
    exact diffStep_hash fs reg f k

theorem diffLoop_frame (fs : FS) :
    ∀ (files changed : List String) (reg : Registry) (k : String) (e e' : Entry),
      regFind reg k = some e → regFind (diffLoop fs files changed reg).2 k = some e' →
      e' ≠ e →
      k ∈ files ∧ ∃ m h, fs.stat k = some m ∧ fs.hashFile k = some h ∧
        e.hash = some h ∧ e' = ⟨e.hash, some m⟩ := by
  intro files
  induction files with
  | nil =>
    intro changed reg k e e' he he' hne
    simp only [diffLoop] at he'
    rw [he] at he'
    injection he' with h1
    exact absurd h1.symm hne
  | cons f rest ih =>
    intro changed reg k e e' he he' hne
    simp only [diffLoop] at he'
    rcases hmid : regFind (diffStep fs reg f).2 k with - | emid
    · have hh := diffStep_hash fs reg f k
      rw [hmid, he] at hh
      simp at hh
    · by_cases hsame : emid = e
      · subst hsame
        have hrec := ih _ _ k emid e' hmid he' hne
        exact ⟨List.mem_cons_of_mem f hrec.1, hrec.2⟩
      · obtain ⟨hkf, m, h, hstat, hhashf, hehash, hemid⟩ :=
          diffStep_frame fs reg f k e emid he hmid hsame
        by_cases hsame2 : e' = emid
        · subst hsame2
          exact ⟨hkf ▸ List.mem_cons_self f rest, m, h, hstat, hhashf, hehash, hemid⟩
        · obtain ⟨hkrest, m2, h2, hstat2, hhash2, hmidhash, he'eq⟩ :=
            ih _ _ k emid e' hmid he' hsame2
          refine ⟨List.mem_cons_of_mem f hkrest, m2, h2, hstat2, hhash2, ?_, ?_⟩
          · rw [hemid] at hmidhash
            exact hmidhash
          · rw [he'eq, hemid]

theorem diffLoop_changed_mem (fs : FS) :
    ∀ (files changed : List String) (reg : Registry) (x : String),
      x ∈ (diffLoop fs files changed reg).1 → x ∈ changed ∨ x ∈ files := by
  intro files
  induction files with
  | nil =>
    intro changed reg x hx
    exact Or.inl hx
  | cons f rest ih =>
    intro changed reg x hx
    simp only [diffLoop] at hx
    rcases ih _ _ x hx with h | h
    · by_cases hs : (diffStep fs reg f).1
      · rw [if_pos hs] at h
        rcases List.mem_append.mp h with h' | h'
        · exact Or.inl h'
        · simp only [List.mem_singleton] at h'
          exact Or.inr (h' ▸ List.mem_cons_self f rest)
      · rw [if_neg hs] at h
        exact Or.inl h
    · exact Or.inr (List.mem_cons_of_mem f h)

theorem pyDiff_deleted_eq (fs : FS) (reg : Registry) (files : List String) :
    (pyDiff fs reg files).1.2
      = sortStrings (((reg.map Prod.fst).dedup).filter fun k => decide (k ∉ files)) := by
  show sortStrings ((((diffLoop fs files [] reg).2.map Prod.fst).dedup).filter _) = _
  rw [diffLoop_keys]

/-! ## Claim theorems: change detector -/

/-- C4: the two-tier check of `FileHashRegistry.diff` for a candidate file
with a stored registry entry: equal mtime → classified unchanged without the
content hash ever being consulted (the outcome is the same for every hash
function); differing mtime but equal hash → classified unchanged with only
the stored mtime refreshed to the new value; differing hash → classified
changed. -/
theorem change_detector_two_tier (fs : FS) (reg : Registry) (f : String)
    (st : Entry) (m : Nat) (hst : regFind reg f = some st) (hm : fs.stat f = some m) :
    (st.mtime = some m →
      ∀ hashFn : String → Option String,
        diffStep ⟨fs.stat, hashFn⟩ reg f = (false, reg)) ∧
    (∀ h, st.mtime ≠ some m → fs.hashFile f = some h → st.hash = some h →
      diffStep fs reg f = (false, regSet reg f ⟨st.hash, some m⟩)) ∧
    (∀ h, st.mtime ≠ some m → fs.hashFile f = some h → st.hash ≠ some h →
      diffStep fs reg f = (true, reg)) := by
  refine ⟨?_, ?_, ?_⟩
  · intro hmt hashFn
    simp [diffStep, hst, hm, hmt]
  · intro h hmt hh hhash
    simp [diffStep, hst, hm, hmt, hh, hhash]
  · intro h hmt hh hhash
    simp [diffStep, hst, hm, hmt, hh, hhash]

/-- C4 witness: the three branches on concrete registries and file systems
(`"a"` stored with hash `"h"` and mtime `0`). -/
theorem change_detector_two_tier_witness :
    diffStep ⟨fun _ => some 0, fun _ => none⟩ [("a", ⟨some "h", some 0⟩)] "a"
      = (false, [("a", ⟨some "h", some 0⟩)]) ∧
    diffStep ⟨fun _ => some 5, fun _ => some "h"⟩ [("a", ⟨some "h", some 0⟩)] "a"
      = (false, [("a", ⟨some "h", some 5⟩)]) ∧
    diffStep ⟨fun _ => some 5, fun _ => some "x"⟩ [("a", ⟨some "h", some 0⟩)] "a"
      = (true, [("a", ⟨some "h", some 0⟩)]) := by
  refine ⟨?_, ?_, ?_⟩
  · exact (change_detector_two_tier ⟨fun _ => some 0, fun _ => some "q"⟩
      [("a", ⟨some "h", some 0⟩)] "a" ⟨some "h", some 0⟩ 0 rfl rfl).1 rfl (fun _ => none)
  · exact (change_detector_two_tier ⟨fun _ => some 5, fun _ => some "h"⟩
      [("a", ⟨some "h", some 0⟩)] "a" ⟨some "h", some 0⟩ 5 rfl rfl).2.1 "h"
      (by decide) rfl rfl
  · exact (change_detector_two_tier ⟨fun _ => some 5, fun _ => some "x"⟩
      [("a", ⟨some "h", some 0⟩)] "a" ⟨some "h", some 0⟩ 5 rfl rfl).2.2 "x"
      (by decide) rfl (by decide)

/-- C5: every path in the stored registry that is absent from the candidate
set appears in `deleted` (and nothing else does), exactly once, in sorted
order; and `deleted` depends only on the registry's key set and the
candidate list — not on the file system or on how many files changed. -/
theorem change_detector_deleted (fs : FS) (reg : Registry) (files : List String) :
    (∀ p, p ∈ (pyDiff fs reg files).1.2 ↔ p ∈ reg.map Prod.fst ∧ p ∉ files) ∧
    (∀ p, p ∈ reg.map Prod.fst → p ∉ files → ((pyDiff fs reg files).1.2).count p = 1) ∧
    ((pyDiff fs reg files).1.2).Sorted (· ≤ ·) ∧
    (∀ (fs' : FS) (reg' : Registry), reg'.map Prod.fst = reg.map Prod.fst →
      (pyDiff fs' reg' files).1.2 = (pyDiff fs reg files).1.2) := by
  rw [pyDiff_deleted_eq]
  refine ⟨?_, ?_, ?_, ?_⟩
  · intro p
    unfold sortStrings
    rw [(List.perm_insertionSort _ _).mem_iff]
    simp [List.mem_filter]
  · intro p hmem hnot
    unfold sortStrings
    rw [(List.perm_insertionSort _ _).count_eq]
    refine List.count_eq_one_of_mem ((List.nodup_dedup _).filter _) ?_
    rw [List.mem_filter]
    exact ⟨List.mem_dedup.mpr hmem, by simpa using hnot⟩
  · exact List.sorted_insertionSort _ _
  · intro fs' reg' hkeys
    rw [pyDiff_deleted_eq, hkeys]

/-- C5 witness: a registry tracking `"a"` and `"b"` diffed against the
candidate set `["b"]` reports `"a"` deleted exactly once. -/
theorem change_detector_deleted_witness :
    "a" ∈ (pyDiff ⟨fun _ => some 1, fun _ => some "h"⟩
      [("b", ⟨some "h", some 1⟩), ("a", ⟨some "h", some 1⟩)] ["b"]).1.2 ∧
    ((pyDiff ⟨fun _ => some 1, fun _ => some "h"⟩
      [("b", ⟨some "h", some 1⟩), ("a", ⟨some "h", some 1⟩)] ["b"]).1.2).count "a" = 1 := by
  have h := change_detector_deleted ⟨fun _ => some 1, fun _ => some "h"⟩
    [("b", ⟨some "h", some 1⟩), ("a", ⟨some "h", some 1⟩)] ["b"]
  exact ⟨(h.1 "a").mpr ⟨by decide, by decide⟩, h.2.1 "a" (by decide) (by decide)⟩

/-- C10: `diff` never adds or removes a registry entry (the key sequence is
unchanged) and never modifies a stored hash; the only mutation is an mtime
refresh, and an entry can change only when its file is a candidate whose
current content hash equals the stored hash — the new entry keeps the hash
and takes the freshly statted mtime. -/
theorem diff_frame (fs : FS) (reg : Registry) (files : List String) :
    ((pyDiff fs reg files).2.map Prod.fst = reg.map Prod.fst) ∧
    (∀ k, (regFind (pyDiff fs reg files).2 k).map Entry.hash
        = (regFind reg k).map Entry.hash) ∧
    (∀ k e e', regFind reg k = some e → regFind (pyDiff fs reg files).2 k = some e' →
      e' ≠ e →
      k ∈ files ∧ ∃ m h, fs.stat k = some m ∧ fs.hashFile k = some h ∧
        e.hash = some h ∧ e' = ⟨e.hash, some m⟩) := by
  exact ⟨diffLoop_keys fs files [] reg, fun k => diffLoop_hash fs files [] reg k,
    fun k e e' he he' hne => diffLoop_frame fs files [] reg k e e' he he' hne⟩

/-- C10 witness: the frame condition applied to a concrete mtime refresh
(stored mtime `0`, current mtime `5`, matching hash `"h"`). -/
theorem diff_frame_witness :
    "a" ∈ ["a"] ∧ ∃ m h,
      (⟨fun _ => some 5, fun _ => some "h"⟩ : FS).stat "a" = some m ∧
      (⟨fun _ => some 5, fun _ => some "h"⟩ : FS).hashFile "a" = some h ∧
      (⟨some "h", some 0⟩ : Entry).hash = some h ∧
      (⟨some "h", some 5⟩ : Entry) = ⟨(⟨some "h", some 0⟩ : Entry).hash, some m⟩ :=
  (diff_frame ⟨fun _ => some 5, fun _ => some "h"⟩
    [("a", ⟨some "h", some 0⟩)] ["a"]).2.2 "a" ⟨some "h", some 0⟩ ⟨some "h", some 5⟩
    rfl (by rfl) (by decide)

/-! ## Identifier assignment lemmas and claim theorems -/

theorem assignIdsAux_getD (l : List String) :
    ∀ (base : String → Nat) (i : Nat), i < l.length →
      (assignIdsAux base l).getD i "" =
        (if base (l.getD i "") + (l.take i).count (l.getD i "") = 0 then l.getD i ""
         else l.getD i "" ++ "#" ++
           toString (base (l.getD i "") + (l.take i).count (l.getD i ""))) := by
  induction l with
  | nil => intro base i h; simp at h
  | cons a t ih =>
    intro base i h
    cases i with
    | zero =>
      simp only [assignIdsAux, List.getD_cons_zero, List.take_zero, List.count_nil,
        Nat.add_zero]
      by_cases hb : base a = 0
      · simp [hb]
      · simp [hb, Nat.pos_of_ne_zero hb]
    | succ j =>
      have hj : j < t.length := by simpa using h
      simp only [assignIdsAux, List.getD_cons_succ, List.take_succ_cons, List.count_cons]
      rw [ih (fun s => if s = a then base a + 1 else base s) j hj]
      by_cases hr : t.getD j "" = a
      · rw [hr]
        have h1 : (if a = a then base a + 1 else base a) = base a + 1 := by simp
        rw [h1]
        have h2 : (List.count a (List.take j t) + if (a == a) = true then 1 else 0)
            = List.count a (List.take j t) + 1 := by simp
        rw [h2]
        have h3 : base a + 1 + List.count a (List.take j t)
            = base a + (List.count a (List.take j t) + 1) := by omega
        rw [h3]
      · have hne : ¬ ((a == t.getD j "") = true) := by simpa using Ne.symm hr
        have h1 : (if t.getD j "" = a then base a + 1 else base (t.getD j ""))
            = base (t.getD j "") := by rw [if_neg hr]
        rw [h1]
        have h2 : (List.count (t.getD j "") (List.take j t)
              + if (a == t.getD j "") = true then 1 else 0)
            = List.count (t.getD j "") (List.take j t) := by rw [if_neg hne, Nat.add_zero]
        rw [h2]

/-- C3 corrected (amended): within one batch handed to the store, the first
occurrence of a raw chunk id keeps the unsuffixed id, and the (k+1)-th
occurrence of the same raw id receives the deterministic suffix `#k`, in
order of occurrence; so two chunks degenerately sharing `(file, start, end)`
receive the ids `raw` and `raw#1`. -/
theorem embed_and_store_ids (chunks : List Chunk) (i : Nat) (h : i < chunks.length) :
    (embedAndStoreIds chunks).getD i "" =
      (if ((chunks.map Chunk.id).take i).count ((chunks.map Chunk.id).getD i "") = 0 then
        (chunks.map Chunk.id).getD i ""
       else
        (chunks.map Chunk.id).getD i "" ++ "#" ++
          toString (((chunks.map Chunk.id).take i).count ((chunks.map Chunk.id).getD i ""))) := by
  unfold embedAndStoreIds assignIds
  rw [assignIdsAux_getD (chunks.map Chunk.id) (fun _ => 0) i (by simpa using h)]
  simp

/-- C3 witness: in a batch of three chunks where the first and third share
one line range and the second another, the suffixes are assigned in order of
occurrence. -/
theorem embed_and_store_ids_witness :
    (embedAndStoreIds [⟨"a.js", 1, 1, "x", none, none⟩, ⟨"a.js", 1, 1, "y", none, none⟩,
      ⟨"a.js", 1, 1, "z", none, none⟩]).getD 2 "" = "a.js:1-1#2" := by
  rw [embed_and_store_ids _ 2 (by decide)]
  rfl

/-- C3 counterexample: two chunks degenerately sharing `("a.js", 1, 1)`
receive the ids `"a.js:1-1"` and `"a.js:1-1#1"` — not ids ending `#1` and
`#2` as the claim states. -/
theorem embed_and_store_ids_counterexample :
    embedAndStoreIds [⟨"a.js", 1, 1, "x", none, none⟩, ⟨"a.js", 1, 1, "y", none, none⟩]
      = ["a.js:1-1", "a.js:1-1#1"] ∧
    embedAndStoreIds [⟨"a.js", 1, 1, "x", none, none⟩, ⟨"a.js", 1, 1, "y", none, none⟩]
      ≠ ["a.js:1-1#1", "a.js:1-1#2"] := by
  constructor
  · rfl
  · decide

/-! ## Indexing-run registry lemmas and claim theorems -/

theorem foldl_regRemove_eq (ds : List String) :
    ∀ reg : Registry, ds.foldl regRemove reg = reg.filter fun p => decide (p.1 ∉ ds) := by
  induction ds with
  | nil => intro reg; simp
  | cons d rest ih =>
    intro reg
    simp only [List.foldl_cons]
    rw [ih]
    unfold regRemove
    rw [List.filter_filter]
    refine List.filter_congr ?_
    intro p _
    by_cases h1 : p.1 = d <;> by_cases h2 : p.1 ∈ rest <;> simp [h1, h2]

theorem foldl_regUpdate_keys_mem (fs : FS) (fls : List String) :
    ∀ (reg : Registry) (x : String), x ∈ (fls.foldl (regUpdate fs) reg).map Prod.fst →
      x ∈ reg.map Prod.fst ∨ x ∈ fls := by
  induction fls with
  | nil => intro reg x hx; exact Or.inl hx
  | cons f rest ih =>
    intro reg x hx
    simp only [List.foldl_cons] at hx
    rcases ih (regUpdate fs reg f) x hx with h | h
    · unfold regUpdate at h
      rcases hh : fs.hashFile f with - | hv <;> rw [hh] at h
      · exact Or.inl h
      · rcases regSet_keys_mem reg f _ x h with h' | h'
        · exact Or.inl h'
        · exact Or.inr (h' ▸ List.mem_cons_self f rest)
    · exact Or.inr (List.mem_cons_of_mem f h)

theorem regFind_regUpdate_ne (fs : FS) (reg : Registry) (f k : String) (h : k ≠ f) :
    regFind (regUpdate fs reg f) k = regFind reg k := by
  unfold regUpdate
  rcases fs.hashFile f with - | hv
  · rfl
  · exact regFind_regSet_ne reg f k _ h

theorem foldl_regUpdate_find_notmem (fs : FS) (fls : List String) :
    ∀ (reg : Registry) (k : String), k ∉ fls →
      regFind (fls.foldl (regUpdate fs) reg) k = regFind reg k := by
  induction fls with
  | nil => intro reg k _; rfl
  | cons f rest ih =>
    intro reg k hk
    simp only [List.foldl_cons]
    rw [ih _ k (fun hm => hk (List.mem_cons_of_mem f hm))]
    exact regFind_regUpdate_ne fs reg f k (fun he => hk (he ▸ List.mem_cons_self f rest))

theorem foldl_regUpdate_find_mem (fs : FS) (fls : List String) :
    ∀ (reg : Registry) (f : String) (h : String) (m : Nat),
      f ∈ fls → fs.hashFile f = some h → fs.stat f = some m →
      regFind (fls.foldl (regUpdate fs) reg) f = some ⟨some h, some m⟩ := by
  induction fls with
  | nil => intro reg f h m hf; simp at hf
  | cons a rest ih =>
    intro reg f h m hf hh hm
    simp only [List.foldl_cons]
    by_cases hfr : f ∈ rest
    · exact ih _ f h m hfr hh hm
    · have hfa : f = a := by
        rcases List.mem_cons.mp hf with h' | h'
        · exact h'
        · exact absurd h' hfr
      subst hfa
      rw [foldl_regUpdate_find_notmem fs rest _ f hfr]
      unfold regUpdate
      simp only [hh]
      rw [regFind_regSet_self]
      simp [hm]

/-- C7 corrected (amended): after an incremental run the persisted registry
holds no entry for a path absent from the candidate set (deleted paths are
removed, entries come only from candidate files); and a full run creates or
refreshes the entry of every hashable candidate file.  (A full run does not
purge stale entries — see the counterexample.) -/
theorem registry_lifecycle (fs : FS) (reg : Registry) (files : List String) :
    (∀ k, k ∈ (incrementalIndexReg fs reg files).map Prod.fst → k ∈ files) ∧
    (∀ f h m, f ∈ files → fs.hashFile f = some h → fs.stat f = some m →
      regFind (fullIndexReg fs reg files) f = some ⟨some h, some m⟩) := by
  constructor
  · intro k hk
    unfold incrementalIndexReg at hk
    rcases foldl_regUpdate_keys_mem fs _ _ k hk with h | h
    · rw [foldl_regRemove_eq] at h
      rcases List.mem_map.mp h with ⟨p, hp, hfst⟩
      rw [List.mem_filter] at hp
      obtain ⟨hpreg, hpdel⟩ := hp
      by_cases hkf : k ∈ files
      · exact hkf
      · exfalso
        have hkreg : k ∈ (pyDiff fs reg files).2.map Prod.fst :=
          hfst ▸ List.mem_map_of_mem Prod.fst hpreg
        have hdel : p.1 ∈ (pyDiff fs reg files).1.2 := by
          rw [pyDiff_deleted_eq]
          unfold sortStrings
          rw [(List.perm_insertionSort _ _).mem_iff, List.mem_filter]
          refine ⟨List.mem_dedup.mpr ?_, by simpa [hfst] using hkf⟩
          have hkeq : (pyDiff fs reg files).2.map Prod.fst = reg.map Prod.fst :=
            diffLoop_keys fs files [] reg
          rw [hkeq] at hkreg
          exact hfst ▸ hkreg
        rw [decide_eq_true_eq] at hpdel
        exact hpdel hdel
    · have := diffLoop_changed_mem fs files [] reg k ?_
      · rcases this with h' | h'
        · exact absurd h' (List.not_mem_nil k)
        · exact h'
      · exact h
  · intro f h m hf hh hm
    exact foldl_regUpdate_find_mem fs files reg f h m hf hh hm

/-- C7 witness: an incremental run on an empty registry with one new file
keeps only that file's entry; a full run writes the fresh entry. -/
theorem registry_lifecycle_witness :
    "a" ∈ ["a"] ∧
    regFind (fullIndexReg ⟨fun _ => some 1, fun _ => some "h"⟩ [] ["a"]) "a"
      = some ⟨some "h", some 1⟩ := by
  have h := registry_lifecycle ⟨fun _ => some 1, fun _ => some "h"⟩ [] ["a"]
  exact ⟨h.1 "a" (by decide), h.2 "a" "h" 1 (by decide) rfl rfl⟩

/-- C7 counterexample: a full indexing run leaves the registry entry of a
path that has disappeared from the project tree in place (`"gone"` survives
although only `"a"` is a candidate), so the claimed invariant fails for full
runs. -/
theorem registry_lifecycle_counterexample :
    fullIndexReg ⟨fun _ => some 1, fun _ => some "h"⟩ [("gone", ⟨some "x", some 0⟩)] ["a"]
      = [("gone", ⟨some "x", some 0⟩), ("a", ⟨some "h", some 1⟩)] ∧
    "gone" ∈ (fullIndexReg ⟨fun _ => some 1, fun _ => some "h"⟩
      [("gone", ⟨some "x", some 0⟩)] ["a"]).map Prod.fst ∧
    "gone" ∉ ["a"] := by
  refine ⟨rfl, ?_, by decide⟩
  rw [(rfl : fullIndexReg ⟨fun _ => some 1, fun _ => some "h"⟩
    [("gone", ⟨some "x", some 0⟩)] ["a"]
      = [("gone", ⟨some "x", some 0⟩), ("a", ⟨some "h", some 1⟩)])]
  decide

/-! ## Claim theorems: corrupt persisted state -/

/-- C8 corrected (amended): a malformed hash-registry file is recovered by
loading the empty registry (never fatal, forcing a full re-hash); a
malformed session-snapshot file makes `compute_diff` return `None` — the
same "no active session" sentinel as a missing snapshot — rather than a
diff against an empty snapshot; neither case raises. -/
theorem corrupt_state_recovery :
    (∀ e : String, registryLoad (some (Except.error e)) = []) ∧
    registryLoad none = [] ∧
    (∀ (e : String) (fs : FS) (files : List String),
      computeDiff (some (Except.error e)) fs files = none) ∧
    (∀ (fs : FS) (files : List String), computeDiff none fs files = none) :=
  ⟨fun _ => rfl, rfl, fun _ _ _ => rfl, fun _ _ => rfl⟩

/-- C8 counterexample: with one readable candidate file, a malformed
snapshot yields the sentinel `None`, which is not the diff computed as if
the snapshot were empty (that diff reports the file as created). -/
theorem corrupt_snapshot_counterexample :
    computeDiff (some (Except.ok [])) ⟨fun _ => some 1, fun _ => some "h"⟩ ["a"]
      = some ⟨[], ["a"], []⟩ ∧
    computeDiff (some (Except.error "bad")) ⟨fun _ => some 1, fun _ => some "h"⟩ ["a"]
      = none ∧
    (none : Option SessionDiff) ≠ some ⟨[], ["a"], []⟩ := by
  refine ⟨rfl, rfl, by decide⟩

/-! ## Gap/trailing whitespace lemmas for the tree-sitter path -/

theorem hasNonWS_strJoin (ls : List String) :
    hasNonWS (strJoin ls) = ls.any hasNonWS := by
  induction ls with
  | nil => rfl
  | cons a t ih =>
    show ((a.data ++ (t.map String.data).flatten).any fun c => !(pyIsSpace c)) = _
    rw [List.any_append, List.any_cons]
    have ht : ((t.map String.data).flatten.any fun c => !(pyIsSpace c))
        = hasNonWS (strJoin t) := rfl
    rw [ht, ih]
    rfl

theorem getD_drop_take (lines : List String) (a b j : Nat) (hj : j < b)
    (hlen : a + j < lines.length) :
    ((lines.drop a).take b).getD j "" = lines.getD (a + j) "" := by
  have hjt : j < ((lines.drop a).take b).length := by
    rw [List.length_take, List.length_drop]
    omega
  rw [List.getD_eq_getElem _ _ hjt, List.getD_eq_getElem _ _ hlen]
  simp

theorem line_of_gap_false (lines : List String) (a b l : Nat)
    (hgap : hasNonWS (strJoin ((lines.drop a).take b)) = false)
    (h1 : a + 1 ≤ l) (h2 : l ≤ a + b) (h3 : l ≤ lines.length) :
    lineNonWS lines l = false := by
  rw [hasNonWS_strJoin] at hgap
  have hany := List.any_eq_false.mp hgap
  have hj : l - 1 - a < b := by omega
  have hlen : a + (l - 1 - a) < lines.length := by omega
  have hjt : l - 1 - a < ((lines.drop a).take b).length := by
    rw [List.length_take, List.length_drop]
    omega
  have hmem : ((lines.drop a).take b).getD (l - 1 - a) "" ∈ (lines.drop a).take b := by
    rw [List.getD_eq_getElem _ _ hjt]
    exact List.getElem_mem hjt
  have hws := hany _ hmem
  rw [getD_drop_take lines a b (l - 1 - a) hj hlen] at hws
  have hidx : a + (l - 1 - a) = l - 1 := by omega
  rw [hidx] at hws
  unfold lineNonWS
  exact Bool.not_eq_true _ ▸ hws

theorem covers_mono_append {cs ds : List Chunk} {l : Nat} (h : covers cs l = true) :
    covers (cs ++ ds) l = true := by
  rw [covers_append, Bool.or_eq_true]
  exact Or.inl h

theorem gapAppend_spec (lines : List String) (language : String)
    (lastEnd childStart : Nat) (chunks : List Chunk)
    (hcs : childStart ≤ lines.length) (hlec : lastEnd ≤ childStart)
    (hbounds : ∀ c ∈ chunks, 1 ≤ c.startLine ∧ c.startLine ≤ c.endLine ∧
      c.endLine ≤ lines.length)
    (hcov : ∀ l, 1 ≤ l → l ≤ lastEnd → lineNonWS lines l = true →
      covers chunks l = true) :
    (∀ c ∈ gapAppend lines language lastEnd childStart chunks,
      1 ≤ c.startLine ∧ c.startLine ≤ c.endLine ∧ c.endLine ≤ lines.length) ∧
    (∀ l, 1 ≤ l → l ≤ childStart → lineNonWS lines l = true →
      covers (gapAppend lines language lastEnd childStart chunks) l = true) := by
  unfold gapAppend
  by_cases hc : childStart > lastEnd ∧ lastEnd < lines.length
  · rw [if_pos hc]
    by_cases hnw : hasNonWS (strJoin ((lines.drop lastEnd).take (childStart - lastEnd))) = true
    · rw [if_pos hnw]
      constructor
      · intro c hcm
        rcases List.mem_append.mp hcm with h | h
        · exact hbounds c h
        · simp only [List.mem_singleton] at h
          subst h
          refine ⟨?_, ?_, ?_⟩ <;> simp <;> omega
      · intro l h1 h2 hnws
        by_cases hl : l ≤ lastEnd
        · exact covers_mono_append (hcov l h1 hl hnws)
        · rw [covers_append, Bool.or_eq_true]
          right
          simp [covers]
          omega
    · rw [if_neg hnw]
      refine ⟨hbounds, ?_⟩
      intro l h1 h2 hnws
      by_cases hl : l ≤ lastEnd
      · exact hcov l h1 hl hnws
      · exfalso
        have hfalse := line_of_gap_false lines lastEnd (childStart - lastEnd) l
          (by simpa using hnw) (by omega) (by omega) (by omega)
        rw [hnws] at hfalse
        simp at hfalse
  · rw [if_neg hc]
    refine ⟨hbounds, ?_⟩
    intro l h1 h2 hnws
    have hll : l ≤ lastEnd := by
      by_cases hx : lastEnd < lines.length
      · have hgt : ¬ childStart > lastEnd := fun hgt => hc ⟨hgt, hx⟩
        omega
      · omega
    exact hcov l h1 hll hnws

theorem tsLoop_spec (lines : List String) (semTypes : List String)
    (maxLines overlap : Nat) (language : String) (hov : overlap < maxLines) :
    ∀ (children : List TSNode) (lastEnd : Nat) (chunks cs : List Chunk),
      (∀ n ∈ children, lastEnd ≤ n.startRow ∧ n.startRow ≤ n.endRow ∧
        n.endRow < lines.length) →
      List.Pairwise (fun a b => a.endRow < b.startRow) children →
      lastEnd ≤ lines.length →
      (∀ c ∈ chunks, 1 ≤ c.startLine ∧ c.startLine ≤ c.endLine ∧
        c.endLine ≤ lines.length) →
      (∀ l, 1 ≤ l → l ≤ lastEnd → lineNonWS lines l = true → covers chunks l = true) →
      tsLoop lines semTypes maxLines overlap language children lastEnd chunks = some cs →
      (∀ c ∈ cs, 1 ≤ c.startLine ∧ c.startLine ≤ c.endLine ∧
        c.endLine ≤ lines.length) ∧
      (∀ l, 1 ≤ l → l ≤ lines.length → lineNonWS lines l = true →
        covers cs l = true) := by
  intro children
  induction children with
  | nil =>
    intro lastEnd chunks cs hwf hpw hle hbounds hcov hrun
    simp only [tsLoop] at hrun
    by_cases hlt : lastEnd < lines.length
    · rw [if_pos hlt] at hrun
      by_cases hnw : hasNonWS (strJoin (lines.drop lastEnd)) = true
      · rw [if_pos hnw] at hrun
        injection hrun with hcs
        subst hcs
        constructor
        · intro c hcm
          rcases List.mem_append.mp hcm with h | h
          · exact hbounds c h
          · simp only [List.mem_singleton] at h
            subst h
            exact ⟨by simp, by simp; omega, by simp⟩
        · intro l h1 h2 hnws
          by_cases hl : l ≤ lastEnd
          · exact covers_mono_append (hcov l h1 hl hnws)
          · rw [covers_append, Bool.or_eq_true]
            right
            simp [covers]
            omega
      · rw [if_neg hnw] at hrun
        injection hrun with hcs
        subst hcs
        refine ⟨hbounds, ?_⟩
        intro l h1 h2 hnws
        by_cases hl : l ≤ lastEnd
        · exact hcov l h1 hl hnws
        · exfalso
          have htr : (lines.drop lastEnd).take (lines.length - lastEnd)
              = lines.drop lastEnd := by
            rw [← List.length_drop]
            exact List.take_length _
          have hfalse := line_of_gap_false lines lastEnd (lines.length - lastEnd) l
            (by rw [htr]; simpa using hnw) (by omega) (by omega) h2
          rw [hnws] at hfalse
          simp at hfalse
    · rw [if_neg hlt] at hrun
      injection hrun with hcs
      subst hcs
      refine ⟨hbounds, ?_⟩
      intro l h1 h2 hnws
      exact hcov l h1 (by omega) hnws
  | cons child rest ih =>
    intro lastEnd chunks cs hwf hpw hle hbounds hcov hrun
    obtain ⟨hse, hsr, her⟩ := hwf child (List.mem_cons_self child rest)
    have hwfrest : ∀ n ∈ rest, child.endRow + 1 ≤ n.startRow ∧ n.startRow ≤ n.endRow ∧
        n.endRow < lines.length := by
      intro n hn
      have h0 := hwf n (List.mem_cons_of_mem child hn)
      have hlt := (List.pairwise_cons.mp hpw).1 n hn
      exact ⟨by omega, h0.2.1, h0.2.2⟩
    have hpwrest := (List.pairwise_cons.mp hpw).2
    simp only [tsLoop] at hrun
    by_cases hsem : child.typ ∈ semTypes
    · rw [if_pos hsem] at hrun
      have hgap := gapAppend_spec lines language lastEnd child.startRow chunks
        (by omega) hse hbounds hcov
      by_cases hfits : child.endRow - child.startRow + 1 ≤ maxLines
      · rw [if_pos hfits] at hrun
        refine ih (child.endRow + 1) _ cs hwfrest hpwrest (by omega) ?_ ?_ hrun
        · intro c hcm
          rcases List.mem_append.mp hcm with h | h
          · exact hgap.1 c h
          · simp only [List.mem_singleton] at h
            subst h
            refine ⟨?_, ?_, ?_⟩ <;> simp [nodeToChunk] <;> omega
        · intro l h1 h2 hnws
          by_cases hl : l ≤ child.startRow
          · exact covers_mono_append (hgap.2 l h1 hl hnws)
          · rw [covers_append, Bool.or_eq_true]
            right
            simp [covers, nodeToChunk]
            omega
      · rw [if_neg hfits] at hrun
        rcases hsw : slidingWindow
            ((lines.drop child.startRow).take (child.endRow + 1 - child.startRow))
            child.startRow maxLines overlap (some language) child.name with - | ws <;>
          rw [hsw] at hrun
        · rw [Option.none_bind] at hrun
          simp at hrun
        · rw [Option.some_bind] at hrun
          unfold slidingWindow at hsw
          have hsublen : ((lines.drop child.startRow).take
              (child.endRow + 1 - child.startRow)).length
              = child.endRow + 1 - child.startRow := by
            rw [List.length_take, List.length_drop]
            omega
          have hwsbounds := swLoopF_bounds hov _ 0 ws hsw
          have hwscov := swLoopF_covers _ 0 ws hsw
          refine ih (child.endRow + 1) _ cs hwfrest hpwrest (by omega) ?_ ?_ hrun
          · intro c hcm
            rcases List.mem_append.mp hcm with h | h
            · exact hgap.1 c h
            · have hb := hwsbounds c h
              rw [hsublen] at hb
              exact ⟨by omega, hb.2.1, by omega⟩
          · intro l h1 h2 hnws
            by_cases hl : l ≤ child.startRow
            · exact covers_mono_append (hgap.2 l h1 hl hnws)
            · rw [covers_append, Bool.or_eq_true]
              right
              refine hwscov l (by omega) ?_
              rw [hsublen]
              omega
    · rw [if_neg hsem] at hrun
      exact ih lastEnd chunks cs (fun n hn => hwf n (List.mem_cons_of_mem child hn))
        hpwrest hle hbounds hcov hrun

/-! ## Claim theorems: chunk_file line coverage -/

/-- C1 corrected (amended): for every file processed by `chunk_file` (under
the configured `overlap < max_lines` and a well-formed parse tree), every
emitted chunk's range lies within `[1, total_line_count]`, every line
containing a non-whitespace character is covered by some chunk, and a file
with zero lines yields zero chunks; when the sliding-window fallback is used
(no registered grammar, or no parse) the union of ranges is exactly
`[1, total_line_count]`.  In the tree-sitter path, whitespace-only gap and
trailing regions are dropped rather than emitted, so their lines may be
uncovered (see the counterexample). -/
theorem chunk_file_line_coverage (text suffix : String)
    (parseResult : Option (List TSNode)) (maxLines overlap : Nat)
    (hov : overlap < maxLines)
    (hwf : ∀ children, parseResult = some children →
      (∀ n ∈ children, n.startRow ≤ n.endRow ∧ n.endRow < (splitLines text).length) ∧
      List.Pairwise (fun a b => a.endRow < b.startRow) children)
    (cs : List Chunk)
    (hrun : chunkFile (some text) suffix parseResult maxLines overlap = some cs) :
    (∀ c ∈ cs, 1 ≤ c.startLine ∧ c.startLine ≤ c.endLine ∧
      c.endLine ≤ (splitLines text).length) ∧
    (∀ l, 1 ≤ l → l ≤ (splitLines text).length →
      lineNonWS (splitLines text) l = true → covers cs l = true) ∧
    (splitLines text = [] → cs = []) ∧
    ((extensionToLanguage suffix = none ∨ parseResult = none) →
      ∀ l, 1 ≤ l → l ≤ (splitLines text).length → covers cs l = true) := by
  have hswgood : slidingWindow (splitLines text) 0 maxLines overlap none none = some cs →
      (∀ c ∈ cs, 1 ≤ c.startLine ∧ c.startLine ≤ c.endLine ∧
        c.endLine ≤ (splitLines text).length) ∧
      (∀ l, 1 ≤ l → l ≤ (splitLines text).length → covers cs l = true) := by
    intro hr
    unfold slidingWindow at hr
    constructor
    · intro c hcm
      have hb := swLoopF_bounds hov _ 0 cs hr c hcm
      exact ⟨by omega, hb.2.1, by omega⟩
    · intro l h1 h2
      exact swLoopF_covers _ 0 cs hr l (by omega) (by omega)
  simp only [chunkFile] at hrun
  by_cases hemp : splitLines text = []
  · rw [if_pos hemp] at hrun
    injection hrun with hcs
    subst hcs
    refine ⟨by simp, ?_, fun _ => rfl, ?_⟩
    · intro l h1 h2
      rw [hemp] at h2
      simp at h2
      omega
    · intro _ l h1 h2
      rw [hemp] at h2
      simp at h2
      omega
  · rw [if_neg hemp] at hrun
    rcases hext : extensionToLanguage suffix with - | langp <;> simp only [hext] at hrun
    · obtain ⟨hb, hcfull⟩ := hswgood hrun
      exact ⟨hb, fun l h1 h2 _ => hcfull l h1 h2, fun he => absurd he hemp,
        fun _ l h1 h2 => hcfull l h1 h2⟩
    · obtain ⟨mod, langName⟩ := langp
      rcases hpr : parseResult with - | children <;> simp only [hpr] at hrun
      · obtain ⟨hb, hcfull⟩ := hswgood hrun
        exact ⟨hb, fun l h1 h2 _ => hcfull l h1 h2, fun he => absurd he hemp,
          fun _ l h1 h2 => hcfull l h1 h2⟩
      · rcases hts : chunkWithTreesitter (splitLines text) children langName
            maxLines overlap with - | ots <;> simp only [hts] at hrun
        · simp at hrun
        · rcases ots with - | cs'
          · obtain ⟨hb, hcfull⟩ := hswgood hrun
            refine ⟨hb, fun l h1 h2 _ => hcfull l h1 h2, fun he => absurd he hemp, ?_⟩
            intro hor l h1 h2
            exact hcfull l h1 h2
          · injection hrun with hcs
            unfold chunkWithTreesitter at hts
            by_cases hst : semanticNodeTypes langName = []
            · rw [if_pos hst] at hts
              simp at hts
            · rw [if_neg hst] at hts
              rcases htl : tsLoop (splitLines text) (semanticNodeTypes langName)
                  maxLines overlap langName children 0 [] with - | cs0 <;>
                rw [htl] at hts
              · simp at hts
              · injection hts with hts'
                by_cases hcs0 : cs0 = []
                · rw [if_pos hcs0] at hts'
                  simp at hts'
                · rw [if_neg hcs0] at hts'
                  injection hts' with hts''
                  have htlcs : tsLoop (splitLines text) (semanticNodeTypes langName)
                      maxLines overlap langName children 0 [] = some cs := by
                    rw [htl, hts'', hcs]
                  obtain ⟨hwfc, hpwc⟩ := hwf children hpr
                  have hspec := tsLoop_spec (splitLines text)
                    (semanticNodeTypes langName) maxLines overlap langName hov
                    children 0 [] cs
                    (fun n hn => ⟨Nat.zero_le _, (hwfc n hn).1, (hwfc n hn).2⟩)
                    hpwc (Nat.zero_le _) (by simp) (by intro l h1 h2; omega) htlcs
                  refine ⟨hspec.1, hspec.2, fun he => absurd he hemp, ?_⟩
                  intro hor
                  rcases hor with h | h <;> simp at h

/-- C1 witness: a one-line Python file with a single function node — the
sole line is covered by the emitted chunk. -/
theorem chunk_file_line_coverage_witness :
    covers ((chunkFile (some "def f(): pass\n") ".py"
      (some [⟨0, 0, "function_definition", some "f"⟩]) 60 2).getD []) 1 = true := by
  have h := chunk_file_line_coverage "def f(): pass\n" ".py"
    (some [⟨0, 0, "function_definition", some "f"⟩]) 60 2 (by omega)
    (fun children hc => by
      injection hc with hc'
      subst hc'
      exact ⟨by decide, by decide⟩)
    ((chunkFile (some "def f(): pass\n") ".py"
      (some [⟨0, 0, "function_definition", some "f"⟩]) 60 2).getD []) (by rfl)
  exact h.2.1 1 (by decide) (by decide) (by decide)

/-- C1 counterexample: for the 2-line Python file `"\ndef f(): pass\n"`
whose parse tree holds one function node on row 1 (0-indexed), the
whitespace-only gap line 1 is dropped: the emitted union of line ranges is
`[2, 2]`, not `[1, 2]`, although the file is non-empty with 2 lines. -/
theorem chunk_file_coverage_counterexample :
    chunkFile (some "\ndef f(): pass\n") ".py"
      (some [⟨1, 1, "function_definition", some "f"⟩]) 60 2
      = some [⟨"", 2, 2, "def f(): pass\n", some "python", some "f"⟩] ∧
    (splitLines "\ndef f(): pass\n").length = 2 ∧
    covers [⟨"", 2, 2, "def f(): pass\n", some "python", some "f"⟩] 1 = false :=
  ⟨rfl, rfl, rfl⟩

end Codescope
